import Mathlib

/-!
Verification of the dominant-color extraction engine of
csharpseattle/DominantColors (`src/cpp/main.cpp`).

The C++ core is shallowly embedded over exact rationals:

* a pixel is a BGR triple of naturals (0–255 per channel);
* the image is the row-major flattening of the pixel grid (every scan in
  the source visits all pixels uniformly, so the 2-D shape is irrelevant);
* the classification buffer `classes` is a parallel `List Nat` of class
  ids (a `uchar` in the source, hence the explicit `% 256` at every point
  where the source narrows an `int` to `uchar`);
* the class tree `t_color_node` is an inductive tree whose every internal
  node has exactly two children (the only constructor of children in the
  source, `partition_class`, always creates both);
* `cv::eigen` on a symmetric 3×3 matrix is abstracted as an explicit
  function parameter `eigen : Mat3 → ℚ × Vec3` returning the top
  eigenvalue (`eigenvalues.at<double>(0)`, descending order) and the top
  eigenvector (`eigenvectors.row(0)`);
* tree nodes are addressed by root paths (`List Bool`, `false` = left),
  playing the role of the node pointers of the source.

Division of a rational by zero yields `0` in Lean where the C++ doubles
would produce NaN (the empty-class gap §7/§9 of the spec); every theorem
touched by this is conditioned on a positive pixel count or is
independent of the stored statistics.
-/

/-- A pixel: three 0–255 channel values in the source's (B,G,R) order. -/
abbrev Pix := Nat × Nat × Nat

/-- A 3-vector of rationals (`cv::Mat` of shape 3×1, CV_64FC1). -/
structure Vec3 where
  x : ℚ
  y : ℚ
  z : ℚ
deriving DecidableEq, Repr

/-- A 3×3 rational matrix (`cv::Mat` of shape 3×3, CV_64FC1). -/
structure Mat3 where
  m00 : ℚ
  m01 : ℚ
  m02 : ℚ
  m10 : ℚ
  m11 : ℚ
  m12 : ℚ
  m20 : ℚ
  m21 : ℚ
  m22 : ℚ
deriving DecidableEq, Repr

def vzero : Vec3 := ⟨0, 0, 0⟩

def mzero : Mat3 := ⟨0, 0, 0, 0, 0, 0, 0, 0, 0⟩

def vadd (a b : Vec3) : Vec3 := ⟨a.x + b.x, a.y + b.y, a.z + b.z⟩

/-- Componentwise division of a 3-vector by a scalar. -/
def vdiv (a : Vec3) (q : ℚ) : Vec3 := ⟨a.x / q, a.y / q, a.z / q⟩

/-- Dot product: the 1×1 matrix `rowVec * colVec` of the source. -/
def dot (a b : Vec3) : ℚ := a.x * b.x + a.y * b.y + a.z * b.z

/-- Outer product `a * b.t()` of two 3×1 matrices. -/
def outer (a b : Vec3) : Mat3 :=
  ⟨a.x * b.x, a.x * b.y, a.x * b.z,
   a.y * b.x, a.y * b.y, a.y * b.z,
   a.z * b.x, a.z * b.y, a.z * b.z⟩

def madd (a b : Mat3) : Mat3 :=
  ⟨a.m00 + b.m00, a.m01 + b.m01, a.m02 + b.m02,
   a.m10 + b.m10, a.m11 + b.m11, a.m12 + b.m12,
   a.m20 + b.m20, a.m21 + b.m21, a.m22 + b.m22⟩

def msub (a b : Mat3) : Mat3 :=
  ⟨a.m00 - b.m00, a.m01 - b.m01, a.m02 - b.m02,
   a.m10 - b.m10, a.m11 - b.m11, a.m12 - b.m12,
   a.m20 - b.m20, a.m21 - b.m21, a.m22 - b.m22⟩

/-- Componentwise division of a 3×3 matrix by a scalar. -/
def mdiv (a : Mat3) (q : ℚ) : Mat3 :=
  ⟨a.m00 / q, a.m01 / q, a.m02 / q,
   a.m10 / q, a.m11 / q, a.m12 / q,
   a.m20 / q, a.m21 / q, a.m22 / q⟩

/-- Componentwise scalar multiple of a 3×3 matrix. -/
def msmul (q : ℚ) (a : Mat3) : Mat3 :=
  ⟨q * a.m00, q * a.m01, q * a.m02,
   q * a.m10, q * a.m11, q * a.m12,
   q * a.m20, q * a.m21, q * a.m22⟩

/-- The `scaled` 3×1 matrix of the source: each channel divided by 255. -/
def normColor (p : Pix) : Vec3 := ⟨(p.1 : ℚ) / 255, (p.2.1 : ℚ) / 255, (p.2.2 : ℚ) / 255⟩

/-- Node payload of `t_color_node`: class id (a `uchar`), mean and
covariance as written by `get_class_mean_cov`. -/
structure NData where
  classid : Nat
  mean : Vec3
  cov : Mat3
deriving DecidableEq, Repr

/-- The class tree.  `partition_class` always creates both children, so
every internal node of a reachable tree has exactly two; the embedding
bakes this shape in. -/
inductive CTree where
  | leaf (d : NData)
  | node (d : NData) (l r : CTree)
deriving DecidableEq, Repr

namespace CTree

/-- Payload of the root node of a (sub)tree. -/
def data : CTree → NData
  | .leaf d => d
  | .node d _ _ => d

def size : CTree → Nat
  | .leaf _ => 1
  | .node _ l r => 1 + l.size + r.size

end CTree

/-- Class ids of all nodes of the tree (internal nodes included). -/
def treeIds : CTree → List Nat
  | .leaf d => [d.classid]
  | .node d l r => d.classid :: (treeIds l ++ treeIds r)

/-- The leaves of the tree in left-to-right structural order. -/
def leavesOf : CTree → List NData
  | .leaf d => [d]
  | .node _ l r => leavesOf l ++ leavesOf r

def leafCount (t : CTree) : Nat := (leavesOf t).length

/-- Ids of the current leaves. -/
def leafIds (t : CTree) : List Nat := (leavesOf t).map (fun d => d.classid)

/-- A root path: `false` descends left, `true` descends right.  Paths play
the role of the `t_color_node*` pointers of the source. -/
def nodeAt : CTree → List Bool → Option CTree
  | t, [] => some t
  | .leaf _, _ :: _ => none
  | .node _ l r, b :: p => nodeAt (if b then r else l) p

/-- Replace the subtree at a (valid) path; models in-place mutation of the
node a pointer designates. -/
def replaceAt : CTree → List Bool → CTree → CTree
  | _, [], nt => nt
  | .leaf d, _ :: _, _ => .leaf d
  | .node d l r, b :: p, nt =>
      if b then .node d l (replaceAt r p nt) else .node d (replaceAt l p nt) r

/-- Abstraction of `cv::eigen` on a symmetric 3×3 matrix: returns the top
(largest) eigenvalue and the corresponding top eigenvector
(`eigenvalues.at<double>(0)` and `eigenvectors.row(0)`). -/
abbrev EigenFn := Mat3 → ℚ × Vec3

/-- Queue loop of `get_next_classid`: BFS over the tree, keeping the
running maximum of the class ids seen. -/
def bfsMaxId : List CTree → Nat → Nat
  | [], m => m
  | .leaf d :: q, m => bfsMaxId q (max m d.classid)
  | .node d l r :: q, m => bfsMaxId (q ++ [l, r]) (max m d.classid)
termination_by q _ => (q.map CTree.size).sum
decreasing_by
  all_goals simp [CTree.size, List.map_append, List.sum_append]
  omega

/-- `get_next_classid`: the highest class id in the tree, plus one. -/
def get_next_classid (t : CTree) : Nat := bfsMaxId [t] 0 + 1

/-- Queue loop of `get_leaves`: BFS collecting leaf payloads in dequeue
order. -/
def bfsLeaves : List CTree → List NData
  | [] => []
  | .leaf d :: q => d :: bfsLeaves q
  | .node _ l r :: q => bfsLeaves (q ++ [l, r])
termination_by q => (q.map CTree.size).sum
decreasing_by
  all_goals simp [CTree.size, List.map_append, List.sum_append]
  omega

/-- `get_leaves`: the leaf nodes in breadth-first order. -/
def get_leaves (t : CTree) : List NData := bfsLeaves [t]

/-- Queue loop of `get_max_eigenvalue_node`.  Each queue entry carries the
path of the subtree it holds; `best` / `bestVal` are the source's `ret` /
`max_eigen`. -/
def bfsMaxEig (eigen : EigenFn) : List (List Bool × CTree) → List Bool → ℚ → List Bool
  | [], best, _ => best
  | (p, .leaf d) :: q, best, bestVal =>
      let v := (eigen d.cov).1
      if bestVal < v then bfsMaxEig eigen q p v else bfsMaxEig eigen q best bestVal
  | (p, .node _ l r) :: q, best, bestVal =>
      bfsMaxEig eigen (q ++ [(p ++ [false], l), (p ++ [true], r)]) best bestVal
termination_by q _ _ => (q.map (fun e => e.2.size)).sum
decreasing_by
  all_goals simp [CTree.size, List.map_append, List.sum_append]
  omega

/-- `get_max_eigenvalue_node`: path of the leaf with the largest top
eigenvalue (`max_eigen` starts at −1, strict improvement, first wins).  A
childless tree returns the root at once, before any eigen computation. -/
def get_max_eigenvalue_node (eigen : EigenFn) (t : CTree) : List Bool :=
  match t with
  | .leaf _ => []
  | .node _ _ _ => bfsMaxEig eigen [([], t)] [] (-1)

/-- Pixel scan of `get_class_mean_cov`: accumulated sum, sum of outer
products, and pixel count of the class `cid`. -/
def classStats : List Pix → List Nat → Nat → Vec3 × Mat3 × ℚ
  | [], _, _ => (vzero, mzero, 0)
  | _ :: _, [], _ => (vzero, mzero, 0)
  | p :: ps, c :: cs, cid =>
      let (s, o, n) := classStats ps cs cid
      if c = cid then
        (vadd s (normColor p), madd o (outer (normColor p) (normColor p)), n + 1)
      else
        (s, o, n)

/-- `get_class_mean_cov`: the mean and covariance fields the estimator
stores into the node.  Note the source completes the covariance as
`cov − (sum · sumᵗ)/pixcount` while `mean` still holds the raw sum, and
only afterwards divides `mean` by the count. -/
def get_class_mean_cov (img : List Pix) (classes : List Nat) (cid : Nat) : Vec3 × Mat3 :=
  let (s, o, n) := classStats img classes cid
  (vdiv s n, msub o (mdiv (outer s s) n))

/-- Pixel relabeling loop of `partition_class`. -/
def relabel (eig : Vec3) (cmp : ℚ) (cid lid rid : Nat) : List Pix → List Nat → List Nat
  | _, [] => []
  | [], cs => cs
  | p :: ps, c :: cs =>
      (if c ≠ cid then c
       else if dot eig (normColor p) ≤ cmp then lid else rid) :: relabel eig cmp cid lid rid ps cs

/-- `partition_class`: split the class of `nd` along the top eigenvector of
its covariance.  `nextid` arrives as an `int` in the driver and is narrowed
to `uchar` at the call boundary, hence the `% 256`; `newidright` is the
`uchar` increment of `newidleft`. -/
def partition_class (eigen : EigenFn) (img : List Pix) (classes : List Nat)
    (nextid : Nat) (nd : NData) : List Nat :=
  let newidleft := nextid % 256
  let newidright := (nextid % 256 + 1) % 256
  let eig := (eigen nd.cov).2
  let comparison_value := dot eig nd.mean
  relabel eig comparison_value nd.classid newidleft newidright img classes

/-- One iteration of the splitting loop of `find_dominant_colors`: locate
the most spread leaf, partition it, and estimate the two new children.
The `none` branch is unreachable (the returned path is always valid). -/
def driverStep (eigen : EigenFn) (img : List Pix) :
    List Nat × CTree → List Nat × CTree := fun st =>
  let p := get_max_eigenvalue_node eigen st.2
  match nodeAt st.2 p with
  | none => st
  | some tn =>
      let nd := tn.data
      let nextid := get_next_classid st.2
      let classes2 := partition_class eigen img st.1 nextid nd
      let lid := nextid % 256
      let rid := (nextid % 256 + 1) % 256
      let lmc := get_class_mean_cov img classes2 lid
      let rmc := get_class_mean_cov img classes2 rid
      (classes2, replaceAt st.2 p (.node nd (.leaf ⟨lid, lmc.1, lmc.2⟩) (.leaf ⟨rid, rmc.1, rmc.2⟩)))

/-- Floor conversion of a normalized channel back to a byte, as in the
`cv::Vec3b(mean.at<double>(0) * 255.0f, …)` constructions of the source
(double→uchar truncation; the values are in [0,255]). -/
def denormChan (q : ℚ) : Nat := (Int.floor (q * 255)).toNat

/-- De-normalize a mean vector to a 0–255 color. -/
def denorm (v : Vec3) : Pix := (denormChan v.x, denormChan v.y, denormChan v.z)

/-- `get_dominant_colors`: one color per leaf, the leaf's mean
de-normalized. -/
def get_dominant_colors (t : CTree) : List Pix :=
  (get_leaves t).map (fun d => denorm d.mean)

/-- `get_quantized_image`: every pixel replaced by the mean color of its
class (the source's inner loop lets the last matching leaf win; a pixel
with no matching leaf keeps the initial black). -/
def get_quantized_image (classes : List Nat) (t : CTree) : List Pix :=
  let leaves := get_leaves t
  classes.map (fun c => leaves.foldl (fun acc d => if d.classid = c then denorm d.mean else acc) (0, 0, 0))

/-- The fixed 18-entry debug palette of `get_viewable_image`. -/
def palette : List Pix :=
  [(0, 0, 0), (255, 0, 0), (0, 255, 0), (0, 0, 255), (255, 255, 0), (0, 255, 255),
   (255, 0, 255), (128, 128, 128), (128, 255, 128), (32, 32, 32), (255, 128, 128),
   (128, 128, 255), (255, 255, 255), (32, 128, 128), (128, 32, 128), (128, 128, 32),
   (128, 32, 32), (32, 128, 32)]

/-- `get_viewable_image`: palette rendering of the class buffer; an id at
or beyond the palette size is skipped, leaving the initial black pixel. -/
def get_viewable_image (classes : List Nat) : List Pix :=
  classes.map (fun c => if 18 ≤ c then (0, 0, 0) else palette.getD c (0, 0, 0))

/-- The initial classification buffer: every pixel starts in class 1. -/
def initClasses (img : List Pix) : List Nat := List.replicate img.length 1

/-- The initial one-node tree with the root statistics estimated. -/
def initTree (img : List Pix) : CTree :=
  let mc := get_class_mean_cov img (initClasses img) 1
  .leaf ⟨1, mc.1, mc.2⟩

/-- `find_dominant_colors`: returns the dominant colors together with the
final classification buffer and tree (the source also renders them to
image files; that output is derived from exactly these values by
`get_quantized_image` / `get_viewable_image`). -/
def find_dominant_colors (eigen : EigenFn) (img : List Pix) (count : Nat) :
    List Pix × List Nat × CTree :=
  let st := (driverStep eigen img)^[count - 1] (initClasses img, initTree img)
  (get_dominant_colors st.2, st.1, st.2)

/-- A concrete eigen oracle used for witnesses and counterexamples:
eigenvalue 0 and axis (1,0,0), which is exactly what `cv::eigen` returns
on the zero matrix. -/
def eigen0 : EigenFn := fun _ => (0, ⟨1, 0, 0⟩)

/-- The canonical estimator the spec describes (for comparison with the
code's `get_class_mean_cov`): `mean = sum / pixelCount` and
`covariance = (sumOuterProduct / pixelCount) − mean·meanᵗ`. -/
def spec_class_mean_cov (img : List Pix) (classes : List Nat) (cid : Nat) : Vec3 × Mat3 :=
  let sc := classStats img classes cid
  let mean := vdiv sc.1 sc.2.2
  (mean, msub (mdiv sc.2.1 sc.2.2) (outer mean mean))

/-- The whole-image mean color the spec describes for `targetCount = 1`:
the arithmetic mean of the normalized colors of all pixels. -/
def spec_whole_image_mean (img : List Pix) : Vec3 :=
  vdiv (img.foldr (fun p acc => vadd acc (normColor p)) vzero) (img.length : ℚ)

/-- The running maximum over all class ids of a tree (specification value
of the BFS loop of `get_next_classid`). -/
def tmax : CTree → Nat
  | .leaf d => d.classid
  | .node d l r => max d.classid (max (tmax l) (tmax r))

/-- Claim C1, counterexample: on the two-pixel image {black, white} in a
single class, the estimator stores covariance `J/2` (the scatter matrix)
where the canonical centered second moment `(sumOuter/n) − μμᵗ` is `J/4`:
the claimed formula does not match the code. -/
theorem C1_counterexample :
    get_class_mean_cov [(0, 0, 0), (255, 255, 255)] [1, 1] 1 ≠
      spec_class_mean_cov [(0, 0, 0), (255, 255, 255)] [1, 1] 1 := by
  norm_num [get_class_mean_cov, spec_class_mean_cov, classStats, normColor, vadd, vdiv,
    outer, madd, msub, mdiv, vzero, mzero, Prod.ext_iff, Mat3.mk.injEq]

/-- Claim C1, amended: for a non-empty class the estimator stores
`mean = sum / pixelCount` (as claimed) but
`covariance = sumOuterProduct − (sum·sumᵗ)/pixelCount`, which is
`pixelCount` times the canonical centered second moment
`(sumOuterProduct / pixelCount) − mean·meanᵗ` — the scatter matrix, not
the covariance. -/
theorem C1_corrected (img : List Pix) (classes : List Nat) (cid : Nat)
    (h : 0 < (classStats img classes cid).2.2) :
    (get_class_mean_cov img classes cid).1 =
      vdiv (classStats img classes cid).1 (classStats img classes cid).2.2 ∧
    (get_class_mean_cov img classes cid).2 =
      msmul (classStats img classes cid).2.2 (spec_class_mean_cov img classes cid).2 := by
  rcases hsc : classStats img classes cid with ⟨s, o, n⟩
  have hn : n ≠ 0 := by
    have h0 := h
    rw [hsc] at h0
    exact ne_of_gt h0
  simp only [get_class_mean_cov, spec_class_mean_cov, hsc]
  refine ⟨trivial, ?_⟩
  simp only [msub, mdiv, msmul, outer, vdiv, Mat3.mk.injEq]
  refine ⟨?_, ?_, ?_, ?_, ?_, ?_, ?_, ?_, ?_⟩ <;> field_simp <;> ring

/-- Claim C1, witness for the amended theorem at a one-pixel class. -/
theorem C1_witness :
    0 < (classStats [(0, 0, 0)] [1] 1).2.2 ∧
    ((get_class_mean_cov [(0, 0, 0)] [1] 1).1 =
        vdiv (classStats [(0, 0, 0)] [1] 1).1 (classStats [(0, 0, 0)] [1] 1).2.2 ∧
      (get_class_mean_cov [(0, 0, 0)] [1] 1).2 =
        msmul (classStats [(0, 0, 0)] [1] 1).2.2 (spec_class_mean_cov [(0, 0, 0)] [1] 1).2) :=
  ⟨by norm_num [classStats], C1_corrected _ _ _ (by norm_num [classStats])⟩

/-- Claim C9: the class-id visualization returns a full-size image; a
pixel whose id is ≥ 18 (the fixed palette size) is skipped, keeping the
buffer's initial black value, while every pixel with id < 18 is rendered
from the fixed palette. -/
theorem C9_confirmed (classes : List Nat) :
    (get_viewable_image classes).length = classes.length ∧
    ∀ (i c : Nat), classes[i]? = some c →
      (18 ≤ c → (get_viewable_image classes)[i]? = some (0, 0, 0)) ∧
      (c < 18 → (get_viewable_image classes)[i]? = some (palette.getD c (0, 0, 0))) := by
  refine ⟨by simp [get_viewable_image], ?_⟩
  intro i c hc
  constructor
  · intro h18
    simp [get_viewable_image, List.getElem?_map, hc, h18]
  · intro h18
    simp [get_viewable_image, List.getElem?_map, hc, Nat.not_le.mpr h18]

/-- Claim C9, witness: a buffer holding ids 5 and 20: id 20 is skipped
(black), via the theorem applied at index 1. -/
theorem C9_witness :
    ([5, 20] : List Nat)[1]? = some 20 ∧ 18 ≤ 20 ∧
    (get_viewable_image [5, 20])[1]? = some (0, 0, 0) :=
  ⟨rfl, by norm_num, ((C9_confirmed [5, 20]).2 1 20 rfl).1 (by norm_num)⟩

/-- Claim C10: the whole pipeline is deterministic — the embedding of
`find_dominant_colors` (and the derived quantized and viewable images) is
a pure function of the pixel buffer, the target count and the eigen
routine, so two runs on identical inputs agree on the color list, the
final classification buffer, the final tree, and both derived images. -/
theorem C10_confirmed (eigen : EigenFn) (img : List Pix) (count : Nat) :
    find_dominant_colors eigen img count = find_dominant_colors eigen img count ∧
    get_quantized_image (find_dominant_colors eigen img count).2.1
        (find_dominant_colors eigen img count).2.2 =
      get_quantized_image (find_dominant_colors eigen img count).2.1
        (find_dominant_colors eigen img count).2.2 ∧
    get_viewable_image (find_dominant_colors eigen img count).2.1 =
      get_viewable_image (find_dominant_colors eigen img count).2.1 :=
  ⟨rfl, rfl, rfl⟩

lemma relabel_length (eig : Vec3) (cmp : ℚ) (cid lid rid : Nat) :
    ∀ (ps : List Pix) (cs : List Nat), ps.length = cs.length →
      (relabel eig cmp cid lid rid ps cs).length = cs.length
  | [], [], _ => rfl
  | [], _ :: _, h => by simp [relabel]
  | _ :: _, [], h => by simp [relabel]
  | p :: ps, c :: cs, h => by
    simp only [relabel, List.length_cons]
    exact congrArg (· + 1) (relabel_length eig cmp cid lid rid ps cs (by simpa using h))

lemma relabel_getElem_ne (eig : Vec3) (cmp : ℚ) (cid lid rid : Nat) :
    ∀ (ps : List Pix) (cs : List Nat) (i c : Nat), cs[i]? = some c → c ≠ cid →
      (relabel eig cmp cid lid rid ps cs)[i]? = some c
  | [], cs, i, c, hc, hne => by cases cs <;> simp_all [relabel]
  | _ :: _, [], i, c, hc, hne => by simp at hc
  | p :: ps, c0 :: cs, 0, c, hc, hne => by
    simp at hc
    subst hc
    simp [relabel, hne]
  | p :: ps, c0 :: cs, i + 1, c, hc, hne => by
    simp only [relabel, List.getElem?_cons_succ] at hc ⊢
    exact relabel_getElem_ne eig cmp cid lid rid ps cs i c hc hne

lemma relabel_getElem_eq (eig : Vec3) (cmp : ℚ) (cid lid rid : Nat) :
    ∀ (ps : List Pix) (cs : List Nat) (i : Nat) (p : Pix), ps[i]? = some p → cs[i]? = some cid →
      (relabel eig cmp cid lid rid ps cs)[i]? =
        some (if dot eig (normColor p) ≤ cmp then lid else rid)
  | [], cs, i, p, hp, hc => by simp at hp
  | _ :: _, [], i, p, hp, hc => by simp at hc
  | p0 :: ps, c0 :: cs, 0, p, hp, hc => by
    simp at hp hc
    subst hp hc
    simp [relabel]
  | p0 :: ps, c0 :: cs, i + 1, p, hp, hc => by
    simp only [relabel, List.getElem?_cons_succ] at hp hc ⊢
    exact relabel_getElem_eq eig cmp cid lid rid ps cs i p hp hc

lemma relabel_not_mem (eig : Vec3) (cmp : ℚ) (cid lid rid : Nat)
    (hl : cid ≠ lid) (hr : cid ≠ rid) :
    ∀ (ps : List Pix) (cs : List Nat), ps.length = cs.length →
      cid ∉ relabel eig cmp cid lid rid ps cs
  | [], [], _ => by simp [relabel]
  | [], _ :: _, h => by simp at h
  | _ :: _, [], h => by simp [relabel]
  | p :: ps, c :: cs, h => by
    simp only [relabel, List.mem_cons, not_or]
    refine ⟨?_, relabel_not_mem eig cmp cid lid rid hl hr ps cs (by simpa using h)⟩
    by_cases hc : c = cid
    · simp [hc]
      split
      · exact hl
      · exact hr
    · simp [hc]
      exact fun hcc => hc hcc.symm

/-- Number of entries of the classification buffer holding the id `i`. -/
def countId : List Nat → Nat → Nat
  | [], _ => 0
  | c :: cs, i => (if c = i then 1 else 0) + countId cs i

lemma relabel_count (eig : Vec3) (cmp : ℚ) (cid lid rid : Nat)
    (hlr : lid ≠ rid) (hl : cid ≠ lid) (hr : cid ≠ rid) :
    ∀ (ps : List Pix) (cs : List Nat), ps.length = cs.length →
      lid ∉ cs → rid ∉ cs →
      countId cs cid = countId (relabel eig cmp cid lid rid ps cs) lid +
        countId (relabel eig cmp cid lid rid ps cs) rid
  | [], [], _, _, _ => by simp [relabel, countId]
  | [], _ :: _, h, _, _ => by simp at h
  | _ :: _, [], h, _, _ => by simp [relabel, countId]
  | p :: ps, c :: cs, h, hlm, hrm => by
    have hl2 : lid ∉ cs := fun hm => hlm (List.mem_cons_of_mem _ hm)
    have hr2 : rid ∉ cs := fun hm => hrm (List.mem_cons_of_mem _ hm)
    have ih := relabel_count eig cmp cid lid rid hlr hl hr ps cs (by simpa using h) hl2 hr2
    have hcl : c ≠ lid := fun hh => hlm (by simp [hh])
    have hcr : c ≠ rid := fun hh => hrm (by simp [hh])
    simp only [relabel]
    by_cases hc : c = cid
    · subst hc
      rw [if_neg (by simp)]
      split <;> (simp only [countId]; split_ifs <;> omega)
    · rw [if_pos hc]
      simp only [countId, if_neg hc, if_neg hcl, if_neg hcr]
      omega

lemma nodeAt_replaceAt_self : ∀ (t : CTree) (p : List Bool) (nt s : CTree),
    nodeAt t p = some s → nodeAt (replaceAt t p nt) p = some nt
  | t, [], nt, s, _ => by simp [replaceAt, nodeAt]
  | .leaf _, _ :: _, _, _, h => by simp [nodeAt] at h
  | .node d l r, b :: p, nt, s, h => by
    cases b
    · simpa [nodeAt, replaceAt] using nodeAt_replaceAt_self l p nt s (by simpa [nodeAt] using h)
    · simpa [nodeAt, replaceAt] using nodeAt_replaceAt_self r p nt s (by simpa [nodeAt] using h)

/-- Claim C5: splitting a leaf relabels every pixel of the parent class to
the left child id when its projection onto the top eigenvector is ≤
threshold = axis·mean (ties left) and to the right child id otherwise;
afterwards no pixel carries the parent id, and the parent's pixel count
equals the sum of the two children's counts (total partition).  The
freshness hypotheses (child ids absent from the buffer and distinct from
the parent id) hold at every split of a run that does not overflow the
one-byte id space. -/
theorem C5_confirmed (eigen : EigenFn) (img : List Pix) (classes : List Nat)
    (nextid : Nat) (nd : NData)
    (hlen : img.length = classes.length)
    (hlm : nextid % 256 ∉ classes)
    (hrm : (nextid % 256 + 1) % 256 ∉ classes)
    (hcl : nd.classid ≠ nextid % 256)
    (hcr : nd.classid ≠ (nextid % 256 + 1) % 256) :
    (∀ (i : Nat) (p : Pix), img[i]? = some p → classes[i]? = some nd.classid →
      (partition_class eigen img classes nextid nd)[i]? =
        some (if dot (eigen nd.cov).2 (normColor p) ≤ dot (eigen nd.cov).2 nd.mean
              then nextid % 256 else (nextid % 256 + 1) % 256)) ∧
    nd.classid ∉ partition_class eigen img classes nextid nd ∧
    countId classes nd.classid =
      countId (partition_class eigen img classes nextid nd) (nextid % 256) +
      countId (partition_class eigen img classes nextid nd) ((nextid % 256 + 1) % 256) := by
  have hlr : nextid % 256 ≠ (nextid % 256 + 1) % 256 := by omega
  simp only [partition_class]
  refine ⟨?_, ?_, ?_⟩
  · intro i p hp hc
    exact relabel_getElem_eq _ _ _ _ _ img classes i p hp hc
  · exact relabel_not_mem _ _ _ _ _ hcl hcr img classes hlen
  · exact relabel_count _ _ _ _ _ hlr hcl hcr img classes hlen hlm hrm

/-- Claim C6: a split is frame-local — every classification entry whose id
differs from the split node's id is unchanged (the pixel buffer is only
read, never written: `partition_class` produces only a new classification
buffer), and the split node keeps its payload (classid, mean, covariance)
while gaining exactly two children. -/
theorem C6_confirmed (eigen : EigenFn) (img : List Pix) (st : List Nat × CTree) (tn : CTree)
    (hnode : nodeAt st.2 (get_max_eigenvalue_node eigen st.2) = some tn) :
    (∀ (i c : Nat), st.1[i]? = some c → c ≠ tn.data.classid →
      (driverStep eigen img st).1[i]? = some c) ∧
    ∃ ld rd, nodeAt (driverStep eigen img st).2 (get_max_eigenvalue_node eigen st.2) =
      some (.node tn.data (.leaf ld) (.leaf rd)) ∧
      ld.classid = get_next_classid st.2 % 256 ∧
      rd.classid = (get_next_classid st.2 % 256 + 1) % 256 := by
  simp only [driverStep, hnode]
  constructor
  · intro i c hc hne
    simp only [partition_class]
    exact relabel_getElem_ne _ _ _ _ _ img st.1 i c hc hne
  · exact ⟨_, _, nodeAt_replaceAt_self st.2 _ _ tn hnode, rfl, rfl⟩

/-- Claim C5, witness: a one-pixel class split with fresh ids 2 and 3. -/
theorem C5_witness :
    (([(0, 0, 0)] : List Pix).length = ([1] : List Nat).length) ∧
    ((2 : Nat) % 256 ∉ ([1] : List Nat)) ∧
    (((2 : Nat) % 256 + 1) % 256 ∉ ([1] : List Nat)) ∧
    ((1 : Nat) ≠ 2 % 256) ∧ ((1 : Nat) ≠ (2 % 256 + 1) % 256) ∧
    ((∀ (i : Nat) (p : Pix), ([(0, 0, 0)] : List Pix)[i]? = some p →
        ([1] : List Nat)[i]? = some 1 →
        (partition_class eigen0 [(0, 0, 0)] [1] 2 ⟨1, vzero, mzero⟩)[i]? =
          some (if dot (eigen0 mzero).2 (normColor p) ≤ dot (eigen0 mzero).2 vzero
                then 2 % 256 else (2 % 256 + 1) % 256)) ∧
      (1 : Nat) ∉ partition_class eigen0 [(0, 0, 0)] [1] 2 ⟨1, vzero, mzero⟩ ∧
      countId [1] 1 =
        countId (partition_class eigen0 [(0, 0, 0)] [1] 2 ⟨1, vzero, mzero⟩) (2 % 256) +
        countId (partition_class eigen0 [(0, 0, 0)] [1] 2 ⟨1, vzero, mzero⟩) ((2 % 256 + 1) % 256)) :=
  ⟨rfl, by norm_num, by norm_num, by norm_num, by norm_num,
   C5_confirmed eigen0 [(0, 0, 0)] [1] 2 ⟨1, vzero, mzero⟩ rfl (by norm_num) (by norm_num)
     (by norm_num) (by norm_num)⟩

/-- Claim C6, witness: one driver step on a one-pixel image. -/
theorem C6_witness :
    (nodeAt (CTree.leaf ⟨1, vzero, mzero⟩)
        (get_max_eigenvalue_node eigen0 (CTree.leaf ⟨1, vzero, mzero⟩)) =
      some (CTree.leaf ⟨1, vzero, mzero⟩)) ∧
    ((∀ (i c : Nat), (([1], CTree.leaf ⟨1, vzero, mzero⟩) : List Nat × CTree).1[i]? = some c →
        c ≠ 1 →
        (driverStep eigen0 [(0, 0, 0)] ([1], CTree.leaf ⟨1, vzero, mzero⟩)).1[i]? = some c) ∧
      ∃ ld rd, nodeAt (driverStep eigen0 [(0, 0, 0)] ([1], CTree.leaf ⟨1, vzero, mzero⟩)).2
          (get_max_eigenvalue_node eigen0 (CTree.leaf ⟨1, vzero, mzero⟩)) =
        some (.node ⟨1, vzero, mzero⟩ (.leaf ld) (.leaf rd)) ∧
        ld.classid = get_next_classid (CTree.leaf ⟨1, vzero, mzero⟩) % 256 ∧
        rd.classid = (get_next_classid (CTree.leaf ⟨1, vzero, mzero⟩) % 256 + 1) % 256) :=
  ⟨by simp [get_max_eigenvalue_node, nodeAt],
   C6_confirmed eigen0 [(0, 0, 0)] ([1], CTree.leaf ⟨1, vzero, mzero⟩)
     (CTree.leaf ⟨1, vzero, mzero⟩) (by simp [get_max_eigenvalue_node, nodeAt])⟩

/-- Leaf payloads of all subtrees held in a traversal queue. -/
def qLeaves (q : List (List Bool × CTree)) : List NData :=
  (q.map (fun e => leavesOf e.2)).flatten

lemma qLeaves_append (a b : List (List Bool × CTree)) :
    qLeaves (a ++ b) = qLeaves a ++ qLeaves b := by
  simp [qLeaves]

lemma nodeAt_append (p2 : List Bool) :
    ∀ (t : CTree) (p : List Bool),
      nodeAt t (p ++ p2) = (nodeAt t p).bind (fun s => nodeAt s p2)
  | t, [] => by simp [nodeAt]
  | .leaf d, b :: p => by simp [nodeAt]
  | .node d l r, b :: p => by
    simp only [List.cons_append, nodeAt]
    exact nodeAt_append p2 (if b then r else l) p

lemma nodeAt_child (t : CTree) (p : List Bool) (d : NData) (l r : CTree) (b : Bool)
    (h : nodeAt t p = some (.node d l r)) :
    nodeAt t (p ++ [b]) = some (if b then r else l) := by
  rw [nodeAt_append [b] t p, h]
  cases b <;> simp [nodeAt]

lemma bfsMaxEig_spec (eigen : EigenFn) (t : CTree) :
    ∀ (q : List (List Bool × CTree)) (best : List Bool) (bestVal : ℚ),
      (∀ e ∈ q, nodeAt t e.1 = some e.2) →
      (bfsMaxEig eigen q best bestVal = best ∧
        ∀ d ∈ qLeaves q, (eigen d.cov).1 ≤ bestVal) ∨
      (∃ d, nodeAt t (bfsMaxEig eigen q best bestVal) = some (.leaf d) ∧
        bestVal < (eigen d.cov).1 ∧
        ∀ d2 ∈ qLeaves q, (eigen d2.cov).1 ≤ (eigen d.cov).1) := by
  intro q best bestVal
  induction q, best, bestVal using bfsMaxEig.induct eigen with
  | case1 best bestVal =>
    intro _
    exact Or.inl ⟨by simp [bfsMaxEig], by simp [qLeaves]⟩
  | case2 p d q best bestVal v hv ih =>
    intro hq
    have hd : nodeAt t p = some (.leaf d) := hq _ (List.mem_cons_self _ _)
    have hq2 : ∀ e ∈ q, nodeAt t e.1 = some e.2 :=
      fun e he => hq e (List.mem_cons_of_mem _ he)
    have hrw : bfsMaxEig eigen ((p, CTree.leaf d) :: q) best bestVal =
        bfsMaxEig eigen q p v := by
      simp only [bfsMaxEig, hv, if_pos]
    rw [hrw]
    have hqL : qLeaves ((p, CTree.leaf d) :: q) = d :: qLeaves q := by
      simp [qLeaves, leavesOf]
    rcases ih hq2 with ⟨heq, hb⟩ | ⟨d2, hn2, hlt2, hmax2⟩
    · refine Or.inr ⟨d, by rw [heq]; exact hd, hv, ?_⟩
      rw [hqL]
      intro d2 hd2
      rcases List.mem_cons.mp hd2 with rfl | hd2
      · exact le_refl _
      · exact hb d2 hd2
    · refine Or.inr ⟨d2, hn2, lt_trans hv hlt2, ?_⟩
      rw [hqL]
      intro d3 hd3
      rcases List.mem_cons.mp hd3 with rfl | hd3
      · exact le_of_lt hlt2
      · exact hmax2 d3 hd3
  | case3 p d q best bestVal v hv ih =>
    intro hq
    have hq2 : ∀ e ∈ q, nodeAt t e.1 = some e.2 :=
      fun e he => hq e (List.mem_cons_of_mem _ he)
    have hrw : bfsMaxEig eigen ((p, CTree.leaf d) :: q) best bestVal =
        bfsMaxEig eigen q best bestVal := by
      simp only [bfsMaxEig, hv, if_neg, if_false]
    rw [hrw]
    have hqL : qLeaves ((p, CTree.leaf d) :: q) = d :: qLeaves q := by
      simp [qLeaves, leavesOf]
    have hvle : (eigen d.cov).1 ≤ bestVal := not_lt.mp hv
    rcases ih hq2 with ⟨heq, hb⟩ | ⟨d2, hn2, hlt2, hmax2⟩
    · refine Or.inl ⟨heq, ?_⟩
      rw [hqL]
      intro d2 hd2
      rcases List.mem_cons.mp hd2 with rfl | hd2
      · exact hvle
      · exact hb d2 hd2
    · refine Or.inr ⟨d2, hn2, hlt2, ?_⟩
      rw [hqL]
      intro d3 hd3
      rcases List.mem_cons.mp hd3 with rfl | hd3
      · exact le_of_lt (lt_of_le_of_lt hvle hlt2)
      · exact hmax2 d3 hd3
  | case4 p d l r q best bestVal ih =>
    intro hq
    have hd : nodeAt t p = some (.node d l r) := hq _ (List.mem_cons_self _ _)
    have hq2 : ∀ e ∈ q ++ [(p ++ [false], l), (p ++ [true], r)], nodeAt t e.1 = some e.2 := by
      intro e he
      rcases List.mem_append.mp he with he | he
      · exact hq e (List.mem_cons_of_mem _ he)
      · simp only [List.mem_cons, List.not_mem_nil, or_false] at he
        rcases he with rfl | rfl
        · simpa using nodeAt_child t p d l r false hd
        · simpa using nodeAt_child t p d l r true hd
    have hrw : bfsMaxEig eigen ((p, CTree.node d l r) :: q) best bestVal =
        bfsMaxEig eigen (q ++ [(p ++ [false], l), (p ++ [true], r)]) best bestVal := by
      simp only [bfsMaxEig]
    rw [hrw]
    have hmem : ∀ d2, d2 ∈ qLeaves ((p, CTree.node d l r) :: q) ↔
        d2 ∈ qLeaves (q ++ [(p ++ [false], l), (p ++ [true], r)]) := by
      intro d2
      simp [qLeaves, leavesOf, or_comm, or_assoc, or_left_comm]
    rcases ih hq2 with ⟨heq, hb⟩ | ⟨d2, hn2, hlt2, hmax2⟩
    · exact Or.inl ⟨heq, fun d2 hd2 => hb d2 ((hmem d2).mp hd2)⟩
    · exact Or.inr ⟨d2, hn2, hlt2, fun d3 hd3 => hmax2 d3 ((hmem d3).mp hd3)⟩

lemma leavesOf_ne_nil : ∀ t : CTree, leavesOf t ≠ []
  | .leaf d => by simp [leavesOf]
  | .node d l r => by
    simp only [leavesOf]
    intro h
    exact leavesOf_ne_nil l (List.append_eq_nil.mp h).1

lemma qLeaves_single (t : CTree) : qLeaves [([], t)] = leavesOf t := by
  simp [qLeaves]

lemma gmen_isSome (eigen : EigenFn) (t : CTree) :
    ∃ s, nodeAt t (get_max_eigenvalue_node eigen t) = some s := by
  cases t with
  | leaf d => exact ⟨.leaf d, rfl⟩
  | node d l r =>
    have hq : ∀ e ∈ [(([] : List Bool), CTree.node d l r)],
        nodeAt (CTree.node d l r) e.1 = some e.2 := by
      simp [nodeAt]
    rcases bfsMaxEig_spec eigen (CTree.node d l r) _ [] (-1) hq with ⟨heq, _⟩ | ⟨d2, hn2, _, _⟩
    · rw [get_max_eigenvalue_node, heq]
      exact ⟨.node d l r, rfl⟩
    · exact ⟨.leaf d2, hn2⟩

lemma gmen_argmax (eigen : EigenFn) (t : CTree)
    (hex : ∃ d0 ∈ leavesOf t, (-1 : ℚ) < (eigen d0.cov).1) :
    ∃ d, nodeAt t (get_max_eigenvalue_node eigen t) = some (.leaf d) ∧
      ∀ d2 ∈ leavesOf t, (eigen d2.cov).1 ≤ (eigen d.cov).1 := by
  cases t with
  | leaf d =>
    refine ⟨d, rfl, ?_⟩
    intro d2 hd2
    simp only [leavesOf, List.mem_singleton] at hd2
    subst hd2
    exact le_refl _
  | node d l r =>
    have hq : ∀ e ∈ [(([] : List Bool), CTree.node d l r)],
        nodeAt (CTree.node d l r) e.1 = some e.2 := by
      simp [nodeAt]
    rcases bfsMaxEig_spec eigen (CTree.node d l r) _ [] (-1) hq with ⟨heq, hb⟩ | ⟨d2, hn2, _, hmax⟩
    · rcases hex with ⟨d0, hd0, hgt⟩
      have := hb d0 (by rw [qLeaves_single]; exact hd0)
      exact absurd hgt (not_lt.mpr this)
    · refine ⟨d2, hn2, ?_⟩
      intro d3 hd3
      exact hmax d3 (by rw [qLeaves_single]; exact hd3)

/-- Claim C7: on a single-node tree `get_max_eigenvalue_node` returns the
root for every eigen routine — the result does not depend on `eigen`, so
no eigen-decomposition is involved; on any tree, under the hypothesis that
the top eigenvalue of every covariance exceeds the −1 sentinel (true of
`cv::eigen` on the positive-semidefinite matrices the program builds), the
returned node is a leaf whose top eigenvalue is maximal among all current
leaves. -/
theorem C7_confirmed (eigen : EigenFn) (t : CTree)
    (heig : ∀ m : Mat3, (-1 : ℚ) < (eigen m).1) :
    (∀ d : NData, t = .leaf d → get_max_eigenvalue_node eigen t = []) ∧
    ∃ d, nodeAt t (get_max_eigenvalue_node eigen t) = some (.leaf d) ∧
      ∀ d2 ∈ leavesOf t, (eigen d2.cov).1 ≤ (eigen d.cov).1 := by
  constructor
  · intro d hd
    subst hd
    rfl
  · refine gmen_argmax eigen t ?_
    rcases List.exists_mem_of_ne_nil _ (leavesOf_ne_nil t) with ⟨d0, hd0⟩
    exact ⟨d0, hd0, heig _⟩

/-- Claim C7, witness: a three-node tree under the constant eigen oracle;
the hypothesis −1 < top eigenvalue holds since the oracle returns 0. -/
theorem C7_witness :
    (∀ m : Mat3, (-1 : ℚ) < (eigen0 m).1) ∧
    ((∀ d : NData, (CTree.node ⟨1, vzero, mzero⟩ (.leaf ⟨2, vzero, mzero⟩)
        (.leaf ⟨3, vzero, mzero⟩)) = .leaf d →
      get_max_eigenvalue_node eigen0 (CTree.node ⟨1, vzero, mzero⟩ (.leaf ⟨2, vzero, mzero⟩)
        (.leaf ⟨3, vzero, mzero⟩)) = []) ∧
    ∃ d, nodeAt (CTree.node ⟨1, vzero, mzero⟩ (.leaf ⟨2, vzero, mzero⟩)
        (.leaf ⟨3, vzero, mzero⟩))
        (get_max_eigenvalue_node eigen0 (CTree.node ⟨1, vzero, mzero⟩ (.leaf ⟨2, vzero, mzero⟩)
          (.leaf ⟨3, vzero, mzero⟩))) = some (.leaf d) ∧
      ∀ d2 ∈ leavesOf (CTree.node ⟨1, vzero, mzero⟩ (.leaf ⟨2, vzero, mzero⟩)
          (.leaf ⟨3, vzero, mzero⟩)), (eigen0 d2.cov).1 ≤ (eigen0 d.cov).1) :=
  ⟨fun _ => by norm_num [eigen0],
   C7_confirmed eigen0 _ (fun _ => by norm_num [eigen0])⟩

lemma leaves_replace : ∀ (t : CTree) (p : List Bool) (s nt : CTree),
    nodeAt t p = some s →
    ∃ pre post, leavesOf t = pre ++ (leavesOf s ++ post) ∧
      leavesOf (replaceAt t p nt) = pre ++ (leavesOf nt ++ post)
  | t, [], s, nt, h => by
    cases t <;>
      (simp [nodeAt] at h; subst h; exact ⟨[], [], by simp, by simp [replaceAt]⟩)
  | .leaf d, b :: p, s, nt, h => by simp [nodeAt] at h
  | .node d l r, b :: p, s, nt, h => by
    cases b
    · have h2 : nodeAt l p = some s := by simpa [nodeAt] using h
      obtain ⟨pre, post, hl1, hl2⟩ := leaves_replace l p s nt h2
      exact ⟨pre, post ++ leavesOf r,
        by simp [leavesOf, hl1], by simp [leavesOf, replaceAt, hl2]⟩
    · have h2 : nodeAt r p = some s := by simpa [nodeAt] using h
      obtain ⟨pre, post, hr1, hr2⟩ := leaves_replace r p s nt h2
      exact ⟨leavesOf l ++ pre, post,
        by simp [leavesOf, hr1], by simp [leavesOf, replaceAt, hr2]⟩

lemma treeIds_replace : ∀ (t : CTree) (p : List Bool) (s nt : CTree),
    nodeAt t p = some s →
    ∃ pre post, treeIds t = pre ++ (treeIds s ++ post) ∧
      treeIds (replaceAt t p nt) = pre ++ (treeIds nt ++ post)
  | t, [], s, nt, h => by
    cases t <;>
      (simp [nodeAt] at h; subst h; exact ⟨[], [], by simp, by simp [replaceAt]⟩)
  | .leaf d, b :: p, s, nt, h => by simp [nodeAt] at h
  | .node d l r, b :: p, s, nt, h => by
    cases b
    · have h2 : nodeAt l p = some s := by simpa [nodeAt] using h
      obtain ⟨pre, post, hl1, hl2⟩ := treeIds_replace l p s nt h2
      exact ⟨d.classid :: pre, post ++ treeIds r,
        by simp [treeIds, hl1], by simp [treeIds, replaceAt, hl2]⟩
    · have h2 : nodeAt r p = some s := by simpa [nodeAt] using h
      obtain ⟨pre, post, hr1, hr2⟩ := treeIds_replace r p s nt h2
      exact ⟨d.classid :: (treeIds l ++ pre), post,
        by simp [treeIds, hr1], by simp [treeIds, replaceAt, hr2]⟩

lemma bfsLeaves_length : ∀ q : List CTree, (bfsLeaves q).length = (q.map leafCount).sum := by
  intro q
  induction q using bfsLeaves.induct with
  | case1 => simp [bfsLeaves]
  | case2 d q ih =>
    simp [bfsLeaves, leafCount, leavesOf, ih]
    omega
  | case3 d l r q ih =>
    simp only [bfsLeaves, ih, List.map_append, List.sum_append, List.map_cons, List.sum_cons,
      leafCount, leavesOf, List.length_append, List.map_nil, List.sum_nil]
    omega

lemma get_leaves_length (t : CTree) : (get_leaves t).length = leafCount t := by
  simp [get_leaves, bfsLeaves_length]

lemma driverStep_leafCount (eigen : EigenFn) (img : List Pix) (st : List Nat × CTree)
    (heig : ∀ m : Mat3, (-1 : ℚ) < (eigen m).1) :
    leafCount (driverStep eigen img st).2 = leafCount st.2 + 1 := by
  obtain ⟨d, hn, _⟩ := gmen_argmax eigen st.2 (by
    rcases List.exists_mem_of_ne_nil _ (leavesOf_ne_nil st.2) with ⟨d0, hd0⟩
    exact ⟨d0, hd0, heig _⟩)
  obtain ⟨pre, post, h1, h2⟩ := leaves_replace st.2 (get_max_eigenvalue_node eigen st.2)
    (.leaf d) (.node (CTree.leaf d).data
      (.leaf ⟨get_next_classid st.2 % 256,
        (get_class_mean_cov img (partition_class eigen img st.1 (get_next_classid st.2)
          (CTree.leaf d).data) (get_next_classid st.2 % 256)).1,
        (get_class_mean_cov img (partition_class eigen img st.1 (get_next_classid st.2)
          (CTree.leaf d).data) (get_next_classid st.2 % 256)).2⟩)
      (.leaf ⟨(get_next_classid st.2 % 256 + 1) % 256,
        (get_class_mean_cov img (partition_class eigen img st.1 (get_next_classid st.2)
          (CTree.leaf d).data) ((get_next_classid st.2 % 256 + 1) % 256)).1,
        (get_class_mean_cov img (partition_class eigen img st.1 (get_next_classid st.2)
          (CTree.leaf d).data) ((get_next_classid st.2 % 256 + 1) % 256)).2⟩)) hn
  simp only [driverStep, hn]
  simp only [leafCount, h1, h2, leavesOf, List.length_append, List.length_cons,
    List.length_nil]
  omega

lemma run_leafCount (eigen : EigenFn) (img : List Pix)
    (heig : ∀ m : Mat3, (-1 : ℚ) < (eigen m).1) :
    ∀ k, leafCount (((driverStep eigen img)^[k]) (initClasses img, initTree img)).2 = k + 1 := by
  intro k
  induction k with
  | zero => simp [initTree, leafCount, leavesOf]
  | succ k ih =>
    rw [Function.iterate_succ_apply', driverStep_leafCount eigen img _ heig, ih]

/-- Claim C3: for every image and target count N in [1,255] the splitting
loop iterates exactly N−1 times (the definitional unfolding in the first
conjunct) and produces a tree with exactly N leaves and a color list of
exactly N entries (one per leaf, the de-normalized leaf mean), under the
cv::eigen hypothesis that top eigenvalues exceed the −1 sentinel. -/
theorem C3_confirmed (eigen : EigenFn) (img : List Pix) (count : Nat)
    (heig : ∀ m : Mat3, (-1 : ℚ) < (eigen m).1)
    (h1 : 1 ≤ count) (h255 : count ≤ 255) :
    find_dominant_colors eigen img count =
      (get_dominant_colors (((driverStep eigen img)^[count - 1])
          (initClasses img, initTree img)).2,
        ((driverStep eigen img)^[count - 1]) (initClasses img, initTree img)) ∧
    leafCount (find_dominant_colors eigen img count).2.2 = count ∧
    (find_dominant_colors eigen img count).1.length = count := by
  have hrun := run_leafCount eigen img heig (count - 1)
  have hc : count - 1 + 1 = count := by omega
  rw [hc] at hrun
  refine ⟨rfl, ?_, ?_⟩
  · exact hrun
  · simp only [find_dominant_colors, get_dominant_colors, List.length_map, get_leaves_length]
    exact hrun

/-- Claim C3, witness: a one-pixel image with target count 2 under the
constant eigen oracle. -/
theorem C3_witness :
    (∀ m : Mat3, (-1 : ℚ) < (eigen0 m).1) ∧ 1 ≤ 2 ∧ 2 ≤ 255 ∧
    (find_dominant_colors eigen0 [(0, 0, 0)] 2 =
      (get_dominant_colors (((driverStep eigen0 [(0, 0, 0)])^[2 - 1])
          (initClasses [(0, 0, 0)], initTree [(0, 0, 0)])).2,
        ((driverStep eigen0 [(0, 0, 0)])^[2 - 1]) (initClasses [(0, 0, 0)], initTree [(0, 0, 0)])) ∧
    leafCount (find_dominant_colors eigen0 [(0, 0, 0)] 2).2.2 = 2 ∧
    (find_dominant_colors eigen0 [(0, 0, 0)] 2).1.length = 2) :=
  ⟨fun _ => by norm_num [eigen0], by norm_num, by norm_num,
   C3_confirmed eigen0 [(0, 0, 0)] 2 (fun _ => by norm_num [eigen0]) (by norm_num) (by norm_num)⟩

/-- Maximum of the `tmax` values of the trees in a queue (base 0). -/
def qMax (q : List CTree) : Nat := (q.map tmax).foldr max 0

lemma qMax_append (a b : List CTree) : qMax (a ++ b) = max (qMax a) (qMax b) := by
  induction a with
  | nil => simp [qMax]
  | cons t a ih =>
    simp only [qMax, List.map_cons, List.foldr_cons, List.cons_append, List.map_append,
      List.foldr_append] at ih ⊢
    omega

lemma bfsMaxId_eq : ∀ (q : List CTree) (m : Nat), bfsMaxId q m = max m (qMax q) := by
  intro q m
  induction q, m using bfsMaxId.induct with
  | case1 m => simp [bfsMaxId, qMax]
  | case2 d q m ih =>
    simp only [bfsMaxId, ih, qMax, tmax, List.map_cons, List.foldr_cons]
    omega
  | case3 d l r q m ih =>
    have happ : qMax (q ++ [l, r]) = max (qMax q) (qMax [l, r]) := qMax_append q [l, r]
    simp only [qMax, tmax, List.map_cons, List.foldr_cons, List.map_nil,
      List.foldr_nil] at happ
    simp only [bfsMaxId, ih, qMax, tmax, List.map_cons, List.foldr_cons,
      List.map_nil, List.foldr_nil]
    omega

lemma get_next_classid_eq (t : CTree) : get_next_classid t = tmax t + 1 := by
  have h := bfsMaxId_eq [t] 0
  simp only [qMax, List.map_cons, List.map_nil, List.foldr_cons, List.foldr_nil] at h
  simp only [get_next_classid, h]
  omega

lemma tmax_le : ∀ t : CTree, ∀ i ∈ treeIds t, i ≤ tmax t
  | .leaf d => by simp [treeIds, tmax]
  | .node d l r => by
    intro i hi
    simp only [treeIds, List.mem_cons, List.mem_append] at hi
    simp only [tmax]
    rcases hi with rfl | hi | hi
    · omega
    · have := tmax_le l i hi
      omega
    · have := tmax_le r i hi
      omega

lemma tmax_mem : ∀ t : CTree, tmax t ∈ treeIds t
  | .leaf d => by simp [treeIds, tmax]
  | .node d l r => by
    have hl := tmax_mem l
    have hr := tmax_mem r
    simp only [tmax, treeIds, List.mem_cons, List.mem_append]
    rcases max_choice d.classid (max (tmax l) (tmax r)) with h2 | h2
    · rw [h2]
      exact Or.inl rfl
    · rw [h2]
      rcases max_choice (tmax l) (tmax r) with h | h
      · rw [h]
        exact Or.inr (Or.inl hl)
      · rw [h]
        exact Or.inr (Or.inr hr)

lemma data_classid_mem : ∀ t : CTree, t.data.classid ∈ treeIds t
  | .leaf d => by simp [treeIds, CTree.data]
  | .node d l r => by simp [treeIds, CTree.data]

lemma replaceAt_data (t : CTree) (p : List Bool) (tn l r : CTree)
    (h : nodeAt t p = some tn) :
    (replaceAt t p (.node tn.data l r)).data = t.data := by
  cases p with
  | nil =>
    cases t <;>
      (simp only [nodeAt, Option.some_inj] at h; subst h; simp [replaceAt, CTree.data])
  | cons b p =>
    cases t with
    | leaf d => simp [replaceAt]
    | node d lc rc =>
      simp only [replaceAt]
      split <;> simp [CTree.data]

/-- Unfolding of one driver step once the node the search returned is
known. -/
lemma driverStep_eq (eigen : EigenFn) (img : List Pix) (st : List Nat × CTree) (tn : CTree)
    (hn : nodeAt st.2 (get_max_eigenvalue_node eigen st.2) = some tn) :
    (driverStep eigen img st).1 =
      partition_class eigen img st.1 (get_next_classid st.2) tn.data ∧
    (driverStep eigen img st).2 =
      replaceAt st.2 (get_max_eigenvalue_node eigen st.2)
        (.node tn.data
          (.leaf ⟨get_next_classid st.2 % 256,
            (get_class_mean_cov img (partition_class eigen img st.1 (get_next_classid st.2)
              tn.data) (get_next_classid st.2 % 256)).1,
            (get_class_mean_cov img (partition_class eigen img st.1 (get_next_classid st.2)
              tn.data) (get_next_classid st.2 % 256)).2⟩)
          (.leaf ⟨(get_next_classid st.2 % 256 + 1) % 256,
            (get_class_mean_cov img (partition_class eigen img st.1 (get_next_classid st.2)
              tn.data) ((get_next_classid st.2 % 256 + 1) % 256)).1,
            (get_class_mean_cov img (partition_class eigen img st.1 (get_next_classid st.2)
              tn.data) ((get_next_classid st.2 % 256 + 1) % 256)).2⟩)) := by
  simp only [driverStep, hn]
  exact ⟨trivial, trivial⟩

lemma relabel_mem (eig : Vec3) (cmp : ℚ) (cid lid rid : Nat) :
    ∀ (ps : List Pix) (cs : List Nat), ps.length = cs.length →
      ∀ c ∈ relabel eig cmp cid lid rid ps cs, c = lid ∨ c = rid ∨ (c ∈ cs ∧ c ≠ cid)
  | [], [], _ => by simp [relabel]
  | [], _ :: _, h => by simp at h
  | _ :: _, [], h => by simp [relabel]
  | p :: ps, c0 :: cs, h => by
    intro c hc
    simp only [relabel, List.mem_cons] at hc
    rcases hc with hc | hc
    · by_cases h0 : c0 = cid
      · rw [if_neg (by simp [h0])] at hc
        subst hc
        split
        · exact Or.inl rfl
        · exact Or.inr (Or.inl rfl)
      · rw [if_pos h0] at hc
        subst hc
        exact Or.inr (Or.inr ⟨List.mem_cons_self _ _, h0⟩)
    · rcases relabel_mem eig cmp cid lid rid ps cs (by simpa using h) c hc with
        h1 | h1 | ⟨h1, h2⟩
      · exact Or.inl h1
      · exact Or.inr (Or.inl h1)
      · exact Or.inr (Or.inr ⟨List.mem_cons_of_mem _ h1, h2⟩)

/-- Invariant of the splitting loop: after k ≤ 127 splits every class id
in the tree is at most 2k+1, and 2k+1 is attained. -/
lemma run_ids (eigen : EigenFn) (img : List Pix) :
    ∀ k, k ≤ 127 →
      (∀ i ∈ treeIds (((driverStep eigen img)^[k]) (initClasses img, initTree img)).2,
        i ≤ 2 * k + 1) ∧
      (2 * k + 1) ∈ treeIds (((driverStep eigen img)^[k]) (initClasses img, initTree img)).2 := by
  intro k
  induction k with
  | zero =>
    intro _
    constructor
    · intro i hi
      simp only [Function.iterate_zero, id_eq, initTree, treeIds, List.mem_singleton] at hi
      omega
    · simp [initTree, treeIds]
  | succ k ih =>
    intro hk
    obtain ⟨ihb, ihm⟩ := ih (by omega)
    rw [Function.iterate_succ_apply']
    set st := ((driverStep eigen img)^[k]) (initClasses img, initTree img) with hst
    obtain ⟨s, hn⟩ := gmen_isSome eigen st.2
    have htm : tmax st.2 = 2 * k + 1 := by
      have ha := ihb _ (tmax_mem st.2)
      have hb := tmax_le st.2 _ ihm
      omega
    have hnext : get_next_classid st.2 = 2 * k + 2 := by
      rw [get_next_classid_eq, htm]
    obtain ⟨-, ht2⟩ := driverStep_eq eigen img st s hn
    obtain ⟨pre, post, hd1, hd2⟩ := treeIds_replace st.2
      (get_max_eigenvalue_node eigen st.2) s _ hn
    rw [ht2, hd2]
    have hlid : get_next_classid st.2 % 256 = 2 * k + 2 := by
      rw [hnext]
      omega
    have hrid : (get_next_classid st.2 % 256 + 1) % 256 = 2 * k + 3 := by
      rw [hlid]
      omega
    constructor
    · intro i hi
      simp only [List.mem_append, treeIds, List.mem_cons, List.mem_singleton,
        List.not_mem_nil, or_false] at hi
      rcases hi with hpre | hmid | hpost
      · have : i ∈ treeIds st.2 := by
          rw [hd1]
          exact List.mem_append.mpr (Or.inl hpre)
        have := ihb i this
        omega
      · rcases hmid with rfl | hi2
        · have : s.data.classid ∈ treeIds st.2 := by
            rw [hd1]
            exact List.mem_append.mpr (Or.inr (List.mem_append.mpr
              (Or.inl (data_classid_mem s))))
          have := ihb _ this
          omega
        · rcases hi2 with rfl | rfl
          · rw [hlid]
            omega
          · rw [hrid]
            omega
      · have : i ∈ treeIds st.2 := by
          rw [hd1]
          exact List.mem_append.mpr (Or.inr (List.mem_append.mpr (Or.inr hpost)))
        have := ihb i this
        omega
    · refine List.mem_append.mpr (Or.inr (List.mem_append.mpr (Or.inl ?_)))
      simp only [treeIds, List.mem_cons, List.mem_append, List.mem_singleton,
        List.not_mem_nil, or_false]
      omega

/-- The root always keeps class id 1 (splitting rewrites a node in place,
preserving its payload). -/
lemma run_root_one (eigen : EigenFn) (img : List Pix) :
    ∀ k, (((driverStep eigen img)^[k]) (initClasses img, initTree img)).2.data.classid = 1 := by
  intro k
  induction k with
  | zero => rfl
  | succ k ih =>
    rw [Function.iterate_succ_apply']
    set st := ((driverStep eigen img)^[k]) (initClasses img, initTree img) with hst
    obtain ⟨s, hn⟩ := gmen_isSome eigen st.2
    obtain ⟨-, ht2⟩ := driverStep_eq eigen img st s hn
    rw [ht2, replaceAt_data st.2 _ s _ _ hn]
    exact ih

/-- Claim C2, amended: in the first 127 splits (covering every run with
targetCount ≤ 128) the pair assigned by split k+1 is (2k+2, 2k+3), both
strictly greater than every id already present in the tree. -/
theorem C2_corrected (eigen : EigenFn) (img : List Pix) (k : Nat) (hk : k ≤ 126) :
    get_next_classid (((driverStep eigen img)^[k]) (initClasses img, initTree img)).2 % 256 =
      2 * k + 2 ∧
    (get_next_classid (((driverStep eigen img)^[k]) (initClasses img, initTree img)).2 % 256
      + 1) % 256 = 2 * k + 3 ∧
    ∀ i ∈ treeIds (((driverStep eigen img)^[k]) (initClasses img, initTree img)).2,
      i < get_next_classid (((driverStep eigen img)^[k]) (initClasses img, initTree img)).2
        % 256 := by
  obtain ⟨hb, hm⟩ := run_ids eigen img k (by omega)
  have hnext : get_next_classid (((driverStep eigen img)^[k])
      (initClasses img, initTree img)).2 = 2 * k + 2 := by
    rw [get_next_classid_eq]
    have ha := hb _ (tmax_mem _)
    have hc := tmax_le _ _ hm
    omega
  refine ⟨by omega, by omega, ?_⟩
  intro i hi
  have := hb i hi
  omega

/-- Claim C2, witness for the amended theorem: the very first split
assigns the fresh pair (2, 3). -/
theorem C2_witness :
    (0 : Nat) ≤ 126 ∧
    (get_next_classid (((driverStep eigen0 [(0, 0, 0)])^[0])
        (initClasses [(0, 0, 0)], initTree [(0, 0, 0)])).2 % 256 = 2 * 0 + 2 ∧
    (get_next_classid (((driverStep eigen0 [(0, 0, 0)])^[0])
        (initClasses [(0, 0, 0)], initTree [(0, 0, 0)])).2 % 256 + 1) % 256 = 2 * 0 + 3 ∧
    ∀ i ∈ treeIds (((driverStep eigen0 [(0, 0, 0)])^[0])
        (initClasses [(0, 0, 0)], initTree [(0, 0, 0)])).2,
      i < get_next_classid (((driverStep eigen0 [(0, 0, 0)])^[0])
        (initClasses [(0, 0, 0)], initTree [(0, 0, 0)])).2 % 256) :=
  ⟨by norm_num, C2_corrected eigen0 [(0, 0, 0)] 0 (by norm_num)⟩

/-- Claim C2, counterexample: in a targetCount-129 run (count within the
claimed range [1,255]), split number 128 computes nextFreeClassId = 256,
which the uchar narrowing turns into the pair (0, 1) — and id 1 (the
root's id) is still present in the tree: the ids are not strictly greater
than the existing ones, and id 1 is reused. -/
theorem C2_counterexample :
    get_next_classid (((driverStep eigen0 [(0, 0, 0)])^[127])
      (initClasses [(0, 0, 0)], initTree [(0, 0, 0)])).2 % 256 = 0 ∧
    (get_next_classid (((driverStep eigen0 [(0, 0, 0)])^[127])
      (initClasses [(0, 0, 0)], initTree [(0, 0, 0)])).2 % 256 + 1) % 256 = 1 ∧
    1 ∈ treeIds (((driverStep eigen0 [(0, 0, 0)])^[127])
      (initClasses [(0, 0, 0)], initTree [(0, 0, 0)])).2 := by
  obtain ⟨hb, hm⟩ := run_ids eigen0 [(0, 0, 0)] 127 (by omega)
  have hnext : get_next_classid (((driverStep eigen0 [(0, 0, 0)])^[127])
      (initClasses [(0, 0, 0)], initTree [(0, 0, 0)])).2 = 256 := by
    rw [get_next_classid_eq]
    have ha := hb _ (tmax_mem _)
    have hc := tmax_le _ _ hm
    omega
  refine ⟨by omega, by omega, ?_⟩
  have hroot := run_root_one eigen0 [(0, 0, 0)] 127
  have := data_classid_mem (((driverStep eigen0 [(0, 0, 0)])^[127])
    (initClasses [(0, 0, 0)], initTree [(0, 0, 0)])).2
  rw [hroot] at this
  exact this

/-- Invariant: the buffer keeps its length, and every id present in the
buffer is the id of a current leaf. -/
lemma run_buffer (eigen : EigenFn) (img : List Pix)
    (heig : ∀ m : Mat3, (-1 : ℚ) < (eigen m).1) :
    ∀ k, (((driverStep eigen img)^[k]) (initClasses img, initTree img)).1.length = img.length ∧
      ∀ c ∈ (((driverStep eigen img)^[k]) (initClasses img, initTree img)).1,
        c ∈ leafIds (((driverStep eigen img)^[k]) (initClasses img, initTree img)).2 := by
  intro k
  induction k with
  | zero =>
    refine ⟨by simp [initClasses], ?_⟩
    intro c hc
    simp only [Function.iterate_zero, id_eq, initClasses, List.mem_replicate] at hc
    simp [initTree, leafIds, leavesOf, hc.2]
  | succ k ih =>
    obtain ⟨ihl, ihm⟩ := ih
    rw [Function.iterate_succ_apply']
    set st := ((driverStep eigen img)^[k]) (initClasses img, initTree img) with hst
    obtain ⟨d, hn, -⟩ := gmen_argmax eigen st.2 (by
      rcases List.exists_mem_of_ne_nil _ (leavesOf_ne_nil st.2) with ⟨d0, hd0⟩
      exact ⟨d0, hd0, heig _⟩)
    obtain ⟨hc2, ht2⟩ := driverStep_eq eigen img st (.leaf d) hn
    obtain ⟨pre, post, hd1, hd2⟩ := leaves_replace st.2
      (get_max_eigenvalue_node eigen st.2) (.leaf d) _ hn
    constructor
    · rw [hc2]
      simp only [partition_class]
      rw [relabel_length _ _ _ _ _ img st.1 ihl.symm]
      exact ihl
    · intro c hc
      rw [hc2] at hc
      simp only [partition_class] at hc
      rw [ht2, leafIds, hd2]
      have hmem := relabel_mem _ _ _ _ _ img st.1 ihl.symm c hc
      simp only [List.map_append, List.mem_append, leavesOf, CTree.data,
        List.map_cons, List.map_nil, List.mem_cons, List.not_mem_nil, or_false,
        List.mem_singleton]
      rcases hmem with rfl | rfl | ⟨hcin, hcne⟩
      · exact Or.inr (Or.inl (Or.inl rfl))
      · exact Or.inr (Or.inl (Or.inr rfl))
      · have := ihm c hcin
        rw [leafIds, hd1] at this
        simp only [List.map_append, List.mem_append, leavesOf, List.map_cons,
          List.map_nil, List.mem_singleton, List.mem_cons, List.not_mem_nil,
          or_false] at this
        rcases this with h1 | h2 | h3
        · exact Or.inl h1
        · exact absurd h2 (by simpa [CTree.data] using hcne)
        · exact Or.inr (Or.inr h3)

/-- Claim C4, amended: at every point of a run, every id present in the
classification buffer is the classId of a current leaf (the inclusion
buffer ⊆ leaves; the claimed equality fails because a one-sided split
leaves a child with no pixels). -/
theorem C4_corrected (eigen : EigenFn) (img : List Pix)
    (heig : ∀ m : Mat3, (-1 : ℚ) < (eigen m).1) (k : Nat) :
    ∀ c ∈ (((driverStep eigen img)^[k]) (initClasses img, initTree img)).1,
      c ∈ leafIds (((driverStep eigen img)^[k]) (initClasses img, initTree img)).2 :=
  (run_buffer eigen img heig k).2

/-- Claim C4, witness for the amended theorem after one split of a
one-pixel image. -/
theorem C4_witness :
    (∀ m : Mat3, (-1 : ℚ) < (eigen0 m).1) ∧
    ∀ c ∈ (((driverStep eigen0 [(0, 0, 0)])^[1]) (initClasses [(0, 0, 0)],
        initTree [(0, 0, 0)])).1,
      c ∈ leafIds (((driverStep eigen0 [(0, 0, 0)])^[1]) (initClasses [(0, 0, 0)],
        initTree [(0, 0, 0)])).2 :=
  ⟨fun _ => by norm_num [eigen0],
   C4_corrected eigen0 [(0, 0, 0)] (fun _ => by norm_num [eigen0]) 1⟩

/-- Claim C4, counterexample to the claimed equality: on a one-pixel image
with targetCount 2, the single split sends the only pixel to the left
child (id 2), so the right leaf id 3 is a current leaf id that appears
nowhere in the buffer. -/
theorem C4_counterexample :
    3 ∈ leafIds (find_dominant_colors eigen0 [(0, 0, 0)] 2).2.2 ∧
    3 ∉ (find_dominant_colors eigen0 [(0, 0, 0)] 2).2.1 := by
  norm_num [find_dominant_colors, initClasses, initTree, get_class_mean_cov, classStats,
    driverStep, get_max_eigenvalue_node, bfsMaxEig, get_next_classid, bfsMaxId,
    partition_class, relabel, nodeAt, replaceAt, leafIds, leavesOf, get_leaves, bfsLeaves,
    get_dominant_colors, denorm, denormChan, eigen0, normColor, vadd, vdiv, dot, outer,
    madd, msub, mdiv, vzero, mzero, CTree.data]

lemma classStats_all (cid : Nat) : ∀ img : List Pix,
    classStats img (List.replicate img.length cid) cid =
      (img.foldr (fun p acc => vadd acc (normColor p)) vzero,
       img.foldr (fun p acc => madd acc (outer (normColor p) (normColor p))) mzero,
       (img.length : ℚ))
  | [] => by simp [classStats]
  | p :: ps => by
    simp only [List.length_cons, List.replicate_succ, classStats, classStats_all cid ps,
      if_pos rfl, List.foldr_cons]
    push_cast
    ring_nf

/-- Claim C8: with targetCount = 1 the splitting loop is skipped (the
classification buffer is returned untouched) and the sole output color is
the de-normalized arithmetic mean of all pixels of the image. -/
theorem C8_confirmed (eigen : EigenFn) (img : List Pix) (_h : img ≠ []) :
    (find_dominant_colors eigen img 1).1 = [denorm (spec_whole_image_mean img)] ∧
    (find_dominant_colors eigen img 1).2.1 = initClasses img := by
  constructor
  · simp only [find_dominant_colors, Nat.sub_self, Function.iterate_zero, id_eq,
      initTree, get_dominant_colors, get_leaves, bfsLeaves, List.map_cons, List.map_nil]
    simp only [get_class_mean_cov, initClasses, classStats_all 1 img,
      spec_whole_image_mean]
  · rfl

/-- Claim C8, witness on a two-pixel image. -/
theorem C8_witness :
    ([(0, 0, 0), (255, 255, 255)] : List Pix) ≠ [] ∧
    ((find_dominant_colors eigen0 [(0, 0, 0), (255, 255, 255)] 1).1 =
      [denorm (spec_whole_image_mean [(0, 0, 0), (255, 255, 255)])] ∧
    (find_dominant_colors eigen0 [(0, 0, 0), (255, 255, 255)] 1).2.1 =
      initClasses [(0, 0, 0), (255, 255, 255)]) :=
  ⟨by simp, C8_confirmed eigen0 [(0, 0, 0), (255, 255, 255)] (by simp)⟩
